import Mathlib

/-!
Verification development for the menu-tree construction algorithm of
`menu_app` (files `menu_app/templatetags/menu_tags.py` and
`menu_app/models.py`).

Shallow embedding conventions:
* A `MenuItem` database row is a record of its relevant fields.  `id` and
  `order` are natural numbers, `parent_id` an `Option Nat` (`none` is the
  sentinel "root"), `url` and `named_url` plain strings where the empty
  string models Python's falsy empty `CharField`.
* Django's `reverse` is an external collaborator; it is modelled as a
  function `String → Option String` where `none` models "`reverse` raised".
* The recursive `build_subtree` of the template tag is modelled with
  explicit fuel; running out of fuel models Python's `RecursionError`
  (which on real inputs can only happen when the recursion does not
  terminate).  Fuel `items.length + 1` is always sufficient for inputs
  whose ids are unique.
* The template tag mutates `node` dictionaries through the `node_map`
  alias table ("last write per id wins", writes happen in depth-first
  pre-order).  This is modelled by a pure marking pass over the finished
  tree that carries the pre-order position and opens exactly the
  positions of the last pre-order occurrence of each marked id.
-/

/-- One `MenuItem` row (`menu_app/models.py`).  Only the fields the menu
algorithm reads are modelled; `menu`/`title` do not influence it. -/
structure MenuItem where
  id : Nat
  parent_id : Option Nat
  order : Nat
  url : String
  named_url : String
deriving DecidableEq, Repr

/-- The sort key `(obj.order, obj.id)` of `build_tree`, as a relation:
lexicographic `≤` on the pair. -/
def keyLE (a b : MenuItem) : Prop :=
  a.order < b.order ∨ (a.order = b.order ∧ a.id ≤ b.id)

instance : DecidableRel keyLE := fun a b => by
  unfold keyLE; exact inferInstance

instance : IsTotal MenuItem keyLE where
  total a b := by unfold keyLE; omega

instance : IsTrans MenuItem keyLE where
  trans a b c := by unfold keyLE; omega

/-- Function `build_tree` of `menu_tags.py`, viewed as the mapping it produces:
grouping the items by `parent_id` (a dict built by appending in input
order, i.e. `filter`) and sorting every per-key list by `(order, id)`
with Python's stable sort (insertion sort with the lexicographic `≤` key
is stable in the same way).  A key that is absent from the dict yields
`[]`, matching the `tree.get(key, [])` call sites. -/
def build_tree (items : List MenuItem) (k : Option Nat) : List MenuItem :=
  List.insertionSort keyLE (items.filter (fun r => decide (r.parent_id = k)))

/-- Method `MenuItem.get_absolute_url` (`menu_app/models.py`): `named_url`, when
non-empty, is resolved through `reverse`; a raised exception (modelled by
`none`) falls back to `url or '#'`; an empty `named_url` returns
`url or '#'` directly. -/
def get_absolute_url (rev : String → Option String) (item : MenuItem) : String :=
  if item.named_url ≠ "" then
    match rev item.named_url with
    | some s => s
    | none => if item.url ≠ "" then item.url else "#"
  else if item.url ≠ "" then item.url else "#"

/-- Property `MenuItem.ancestors` (`menu_app/models.py`): repeatedly follow the
`parent` foreign key.  The parent object behind `parent_id` is the row
with that primary key, i.e. `find?` on the item list (primary keys are
unique in the database, so `find?` is exact there).  The walk is fuelled;
`none` models the non-terminating `while` loop on a cyclic chain.  A
dangling `parent_id` cannot occur through the foreign key; it is modelled
as the end of the chain. -/
def ancestors (items : List MenuItem) : Nat → Option Nat → Option (List MenuItem)
  | _, none => some []
  | 0, some _ => none
  | f + 1, some pid =>
    match items.find? (fun r => decide (r.id = pid)) with
    | none => some []
    | some p => (ancestors items f p.parent_id).map (fun l => p :: l)

/-- One node of the produced menu tree: the dict
`{'item': …, 'children': …, 'active': …, 'open': …}` of `build_subtree`. -/
inductive TNode : Type where
  | mk : MenuItem → List TNode → Bool → Bool → TNode

/-- The `'item'` entry of a tree-node dict. -/
def TNode.item : TNode → MenuItem
  | .mk it _ _ _ => it

/-- The `'children'` entry of a tree-node dict. -/
def TNode.children : TNode → List TNode
  | .mk _ cs _ _ => cs

/-- The `'active'` entry of a tree-node dict. -/
def TNode.active : TNode → Bool
  | .mk _ _ a _ => a

/-- The `'open'` entry of a tree-node dict (`open` is a Lean keyword). -/
def TNode.isOpen : TNode → Bool
  | .mk _ _ _ o => o

mutual

/-- Depth-first pre-order listing of a node and all its descendants, in
the visit order of `build_subtree`. -/
def nodePre : TNode → List TNode
  | .mk it cs a o => .mk it cs a o :: forestPre cs

/-- Depth-first pre-order listing of all nodes of a forest. -/
def forestPre : List TNode → List TNode
  | [] => []
  | n :: ns => nodePre n ++ forestPre ns

end

/-- The records wrapped by a forest, in depth-first pre-order: the order
in which `build_subtree` visits them. -/
def forestItems (ts : List TNode) : List MenuItem :=
  (forestPre ts).map TNode.item

/-- Left-to-right `Option`-valued map: build each entry, abort on the
first failure (the shape of the recursive calls inside the list
comprehension / `for child in …` loop). -/
def optMap (g : MenuItem → Option TNode) : List MenuItem → Option (List TNode)
  | [] => some []
  | r :: rs =>
    match g r, optMap g rs with
    | some n, some ns => some (n :: ns)
    | _, _ => none

/-- The recursive materialization of `build_subtree` over a whole
sibling list, fuelled by recursion depth.  At fuel `f + 1` every sibling
becomes a node whose `active` flag records `url == current_path`, whose
`open` flag starts `False`, and whose children are built at fuel `f`
from the grouping lookup `tree.get(item.id, [])`.  Exhausted fuel on a
non-empty list models Python's `RecursionError`. -/
def build_forest (rev : String → Option String) (items : List MenuItem) (cur : String) :
    Nat → List MenuItem → Option (List TNode)
  | 0, [] => some []
  | 0, _ :: _ => none
  | f + 1, rs =>
    optMap (fun item =>
      match build_forest rev items cur f (build_tree items (some item.id)) with
      | none => none
      | some cs => some (TNode.mk item cs (decide (get_absolute_url rev item = cur)) false)) rs

/-- Function `build_subtree` of `menu_tags.py` for a single item (children built
at one fuel step less). -/
def build_subtree (rev : String → Option String) (items : List MenuItem) (cur : String) :
    Nat → MenuItem → Option TNode
  | 0, _ => none
  | f + 1, item =>
    match build_forest rev items cur f (build_tree items (some item.id)) with
    | none => none
    | some cs => some (TNode.mk item cs (decide (get_absolute_url rev item = cur)) false)

/-- The `active_item` variable after materialization: `build_subtree`
overwrites it at every match during the depth-first pre-order visit, so
its final value is the last match in pre-order. -/
def activeItem (rev : String → Option String) (cur : String) (ts : List TNode) :
    Option MenuItem :=
  ((forestItems ts).filter (fun it => decide (get_absolute_url rev it = cur))).getLast?

/-- The pre-order position `node_map[i]` aliases: `node_map[item.id] =
node` is executed at every pre-order visit, so the surviving entry for
an id is its last pre-order occurrence.  `none` models a `node_map.get`
miss. -/
def lastIdxOf (l : List MenuItem) (i : Nat) : Option Nat :=
  match l with
  | [] => none
  | r :: rs =>
    match lastIdxOf rs i with
    | some j => some (j + 1)
    | none => if r.id = i then some 0 else none

mutual

/-- Open-marking pass over one node: `j` is the node's depth-first
pre-order position; `g` says which positions get `node['open'] = True`
(the positions aliased by `node_map` entries of the marked ids).
Everything else keeps its present flag. -/
def markNode (g : Nat → Bool) (j : Nat) : TNode → TNode
  | .mk it cs a o => .mk it (markForest g (j + 1) cs) a (if g j then true else o)

/-- Open-marking pass over a sibling list starting at pre-order
position `j`. -/
def markForest (g : Nat → Bool) (j : Nat) : List TNode → List TNode
  | [] => []
  | n :: ns => markNode g j n :: markForest g (j + (nodePre n).length) ns

end

/-- The body of `draw_menu` after the menu rows have been fetched: build
the grouping, materialize the forest from the sentinel key, record the
active item, and if there is one, set `open` on the `node_map` entries
of its ancestor chain and of the active item itself.  `none` models a
`RecursionError` (unbounded recursion). -/
def draw_menu_core (rev : String → Option String) (items : List MenuItem) (cur : String) :
    Option (List TNode) :=
  match build_forest rev items cur (items.length + 1) (build_tree items none) with
  | none => none
  | some ts =>
    match activeItem rev cur ts with
    | none => some ts
    | some act =>
      match ancestors items (items.length + 1) act.parent_id with
      | none => none
      | some ancs =>
        some (markForest
          (fun j => decide (j ∈ (ancs.map MenuItem.id ++ [act.id]).filterMap
            (lastIdxOf (forestItems ts)))) 0 ts)

/-- The failure modes of the `draw_menu` template tag:
`missingRequest` is the `RuntimeError` raised when the context has no
request; `recursionLimit` models Python's `RecursionError` on
non-terminating recursion. -/
inductive MenuError where
  | missingRequest : MenuError
  | recursionLimit : MenuError
deriving DecidableEq, Repr

/-- The `draw_menu` template tag (`menu_tags.py`).  `request` is the
resolved current path when the context has a request (`none` otherwise);
`menuItems` is the record source's answer, `none` when
`Menu.DoesNotExist` was raised for the menu name.  It returns the
`menu_tree` value of the context dict, or the raised error. -/
def draw_menu (rev : String → Option String) (request : Option String)
    (menuItems : Option (List MenuItem)) : Except MenuError (List TNode) :=
  match request with
  | none => .error .missingRequest
  | some cur =>
    match menuItems with
    | none => .ok []
    | some items =>
      match draw_menu_core rev items cur with
      | none => .error .recursionLimit
      | some ts => .ok ts

/-! ### Analysis vocabulary for the verification

The following definitions are not part of the source; they name the
concepts the specification's properties quantify over (parent chains,
reachability, referential validity) in terms of the embedded data. -/

/-- The records wrapped by a node and its descendants, in the pre-order
visit order of `build_subtree`. -/
def nodeItems (n : TNode) : List MenuItem :=
  (nodePre n).map TNode.item

/-- The record behind the `parent` foreign key of `x`: the row whose id
is `x.parent_id` (`none` for a sentinel or dangling parent). -/
def fkParent (items : List MenuItem) (x : MenuItem) : Option MenuItem :=
  match x.parent_id with
  | none => none
  | some pid => items.find? (fun r => decide (r.id = pid))

/-- Bounded reachability upwards along foreign-key parents: `x` reaches
`t` within fewer than `f` parent steps. -/
def reaches (items : List MenuItem) : Nat → MenuItem → MenuItem → Bool
  | 0, _, _ => false
  | f + 1, x, t =>
    decide (x = t) ||
      match fkParent items x with
      | none => false
      | some p => reaches items f p t

/-- Strict (at least one parent step) bounded reachability. -/
def sreach (items : List MenuItem) (f : Nat) (x t : MenuItem) : Bool :=
  match fkParent items x with
  | none => false
  | some p => reaches items f p t

/-- A referentially valid parent chain, as the specification calls it:
following foreign-key parents from `x` hits the sentinel within `f`
steps (so the chain neither dangles nor cycles). -/
def chainRoot (items : List MenuItem) : Nat → MenuItem → Bool
  | 0, _ => false
  | f + 1, x =>
    if x.parent_id = none then true
    else
      match fkParent items x with
      | none => false
      | some p => chainRoot items f p

/-- Referential validity at the fuel bound `draw_menu` itself uses; a
terminating chain never revisits a record, so `items.length + 1` steps
decide validity. -/
def validChain (items : List MenuItem) (x : MenuItem) : Bool :=
  chainRoot items (items.length + 1) x

/-! ### Concrete inputs used by counterexamples and witnesses -/

/-- A resolver collaborator that always fails (no `named_url` resolves). -/
def rev0 : String → Option String := fun _ => none

/-- Root of the specification's worked scenario. -/
def specRoot : MenuItem := { id := 1, parent_id := none, order := 0, url := "/", named_url := "" }

/-- First child of the specification's worked scenario. -/
def specAbout : MenuItem := { id := 2, parent_id := some 1, order := 0, url := "/about", named_url := "" }

/-- Second child of the specification's worked scenario. -/
def specContact : MenuItem := { id := 3, parent_id := some 1, order := 1, url := "/contact", named_url := "" }

/-- First of two root records resolving to the same location `/x`. -/
def itemA : MenuItem := { id := 1, parent_id := none, order := 0, url := "/x", named_url := "" }

/-- Second of two root records resolving to the same location `/x`. -/
def itemB : MenuItem := { id := 2, parent_id := none, order := 1, url := "/x", named_url := "" }

/-- Cycle member: its parent is `cycB`. -/
def cycA : MenuItem := { id := 1, parent_id := some 2, order := 0, url := "/a", named_url := "" }

/-- Cycle member: its parent is `cycA`. -/
def cycB : MenuItem := { id := 2, parent_id := some 1, order := 0, url := "/b", named_url := "" }

/-- A record whose `parent_id` (42) matches no id in the group. -/
def orphan1 : MenuItem := { id := 1, parent_id := some 42, order := 0, url := "/a", named_url := "" }

/-- First record of the duplicate-id pair. -/
def dupA : MenuItem := { id := 1, parent_id := none, order := 0, url := "/a", named_url := "" }

/-- Second record of the duplicate-id pair (same id, different order). -/
def dupB : MenuItem := { id := 1, parent_id := none, order := 1, url := "/b", named_url := "" }

/-- Expected output node of the specification's worked scenario for the
record `specAbout`. -/
def specNodeAbout : TNode := .mk specAbout [] true true

/-- Expected sibling of `specNodeAbout` in the worked scenario. -/
def specNodeContact : TNode := .mk specContact [] false false

/-- Expected root node of the worked scenario. -/
def specNodeRoot : TNode := .mk specRoot [specNodeAbout, specNodeContact] false true

/-- Number of nodes of a `draw_menu` result carrying `active = true`. -/
def activeCount (res : Except MenuError (List TNode)) : Nat :=
  match res with
  | .ok ts => ((forestPre ts).filter TNode.active).length
  | .error _ => 0

/-- Number of nodes of a `draw_menu` result with `active = true` but
`open = false`. -/
def activeNotOpenCount (res : Except MenuError (List TNode)) : Nat :=
  match res with
  | .ok ts => ((forestPre ts).filter (fun n => n.active && !n.isOpen)).length
  | .error _ => 0

/-! ### Basic lemmas about the embedding -/

/-- Inversion of `optMap` on a cons cell. -/
theorem optMap_cons_some {g : MenuItem → Option TNode} {r : MenuItem} {rs : List MenuItem}
    {ts : List TNode} (h : optMap g (r :: rs) = some ts) :
    ∃ n ns, g r = some n ∧ optMap g rs = some ns ∧ ts = n :: ns := by
  cases hg : g r with
  | none => rw [optMap, hg] at h; exact absurd h (by simp)
  | some n =>
    cases ho : optMap g rs with
    | none => rw [optMap, hg, ho] at h; exact absurd h (by simp)
    | some ns =>
      rw [optMap, hg, ho] at h
      exact ⟨n, ns, rfl, rfl, by simpa using h.symm⟩

/-- Success of `optMap` is pointwise success, giving the
pointwise relation between inputs and produced nodes. -/
theorem optMap_eq_some_iff {g : MenuItem → Option TNode} {rs : List MenuItem}
    {ts : List TNode} :
    optMap g rs = some ts ↔ List.Forall₂ (fun r n => g r = some n) rs ts := by
  induction rs generalizing ts with
  | nil =>
    constructor
    · intro h
      cases ts with
      | nil => exact List.Forall₂.nil
      | cons t ts' => simp [optMap] at h
    · intro h; cases h; rfl
  | cons r rs ih =>
    constructor
    · intro h
      obtain ⟨n, ns, hg, ho, rfl⟩ := optMap_cons_some h
      exact List.Forall₂.cons hg (ih.mp ho)
    · intro h
      cases h with
      | cons hg ho => rw [optMap, hg, (ih.mpr ho)]

/-- A fuelled forest build is the `optMap` of the corresponding
single-item builds. -/
theorem build_forest_eq_optMap (rev : String → Option String) (items : List MenuItem)
    (cur : String) (f : Nat) (rs : List MenuItem) :
    build_forest rev items cur f rs = optMap (build_subtree rev items cur f) rs := by
  cases f with
  | zero =>
    cases rs with
    | nil => rfl
    | cons r rs => rfl
  | succ f => rfl

/-! ### Claims C3, C4, C7, C8, C10 and the concrete counterexamples -/

/-- C3 counterexample: the claim says an input with two records sharing
an id makes the tree builder fail with `DuplicateIdentifier` and return
no tree.  The source's `build_tree` has no error channel at all: on the
duplicate-id input `[dupA, dupB]` (both with id 1) it succeeds and
returns a grouping holding both records under the sentinel key. -/
theorem C3_counterexample : build_tree [dupA, dupB] none = [dupA, dupB] := by rfl

/-- C3 amended: `build_tree` performs no duplicate-id detection and
cannot fail; for every input (duplicate ids included) the sequence under
any key is a permutation of the records carrying that `parent_id`, and a
record is grouped under a key exactly when its `parent_id` is that key.
No partial tree ever arises because no failure arises. -/
theorem C3_theorem (items : List MenuItem) (k : Option Nat) :
    (build_tree items k).Perm (items.filter (fun r => decide (r.parent_id = k)))
    ∧ ∀ r, r ∈ build_tree items k ↔ (r ∈ items ∧ r.parent_id = k) := by
  constructor
  · exact List.perm_insertionSort keyLE _
  · intro r
    unfold build_tree
    rw [List.mem_insertionSort, List.mem_filter]
    simp

/-- C4 counterexample: the claim says the cyclic input (`cycA`'s parent
is `cycB` and vice versa) makes `draw_menu` raise a `CyclicParentage`
condition.  The source carries no ancestor set and raises nothing: the
call terminates successfully with an empty tree, because neither cycle
member has the sentinel parent and so neither is ever visited. -/
theorem C4_counterexample :
    draw_menu rev0 (some "/") (some [cycA, cycB]) = .ok [] := by rfl

/-- C4 amended: the code raises no `CyclicParentage` condition and does
not fail to terminate on cyclic parentage; records on a parent cycle all
have non-sentinel parents, and whenever every record of the input has a
non-sentinel parent (as in a pure cycle) the call returns the empty tree
successfully, silently omitting every record. -/
theorem C4_theorem (rev : String → Option String) (cur : String) (items : List MenuItem)
    (h : ∀ r ∈ items, r.parent_id ≠ none) :
    draw_menu rev (some cur) (some items) = .ok [] := by
  have hf : items.filter (fun r => decide (r.parent_id = (none : Option Nat))) = [] := by
    rw [List.filter_eq_nil_iff]
    intro a ha
    simpa using h a ha
  have hbt : build_tree items none = [] := by
    unfold build_tree
    rw [hf]
    rfl
  have hcore : draw_menu_core rev items cur = some [] := by
    unfold draw_menu_core
    rw [hbt]
    rfl
  simp only [draw_menu, hcore]

/-- C4 witness: the cyclic pair satisfies the hypothesis of the amended
theorem and the call indeed returns the empty tree. -/
theorem C4_witness :
    (∀ r ∈ [cycA, cycB], r.parent_id ≠ none)
    ∧ draw_menu rev0 (some "/") (some [cycA, cycB]) = .ok [] :=
  ⟨by decide, C4_theorem rev0 "/" [cycA, cycB] (by decide)⟩

/-- C5 counterexample: the claim says a record whose `parent_id` matches
no id in the group is treated as a root and appears in the output tree.
The source only starts traversal from `tree.get(None, [])`, so the
orphan record (`parent_id = 42`, no record with id 42) is silently
dropped: the output tree is empty. -/
theorem C5_counterexample :
    draw_menu rev0 (some "/z") (some [orphan1]) = .ok [] := by rfl

/-- C7: `get_absolute_url` never propagates a resolver failure (the
embedding of `reverse` returns `none` exactly when the Python call
raises, and that case is absorbed by the `try/except`): with a non-empty
`named_url` a successful resolution takes precedence over `url`, a
failed resolution falls back to `url or '#'`, and with an empty
`named_url` the result is `url or '#'` directly.  Totality of the Lean
function reflects that no exception escapes. -/
theorem C7_theorem (rev : String → Option String) (item : MenuItem) :
    (∀ s, item.named_url ≠ "" → rev item.named_url = some s →
      get_absolute_url rev item = s)
    ∧ (item.named_url ≠ "" → rev item.named_url = none →
      get_absolute_url rev item = (if item.url ≠ "" then item.url else "#"))
    ∧ (item.named_url = "" →
      get_absolute_url rev item = (if item.url ≠ "" then item.url else "#")) := by
  unfold get_absolute_url
  refine ⟨?_, ?_, ?_⟩
  · intro s hn hr
    rw [if_pos hn, hr]
  · intro hn hr
    rw [if_pos hn, hr]
  · intro hn
    rw [if_neg (by simp [hn])]

/-- C7 witness: the three branches of the resolution contract at
concrete records: a resolvable name wins over the literal location, a
failing resolution falls back to the literal location, and to `#` when
the literal location is empty too. -/
theorem C7_witness :
    get_absolute_url (fun _ => some "/resolved")
      { id := 7, parent_id := none, order := 0, url := "/u", named_url := "home" } = "/resolved"
    ∧ get_absolute_url rev0
      { id := 7, parent_id := none, order := 0, url := "/u", named_url := "home" }
      = (if "/u" ≠ "" then "/u" else "#")
    ∧ get_absolute_url rev0
      { id := 7, parent_id := none, order := 0, url := "", named_url := "" }
      = (if "" ≠ "" then "" else "#") :=
  ⟨(C7_theorem (fun _ => some "/resolved") _).1 "/resolved" (by decide) rfl,
   (C7_theorem rev0 _).2.1 (by decide) rfl,
   (C7_theorem rev0 _).2.2 rfl⟩

/-- C8: an unknown menu-group name (the record source answers
`Menu.DoesNotExist`, modelled by `none`) and an empty record set both
yield a successful empty root sequence from `draw_menu`, not an error. -/
theorem C8_theorem (rev : String → Option String) (cur : String) :
    draw_menu rev (some cur) none = .ok []
    ∧ draw_menu rev (some cur) (some []) = .ok [] :=
  ⟨rfl, rfl⟩

/-- C10: a template context without a request (`request = none`) makes
`draw_menu` fail with the `RuntimeError` before any menu data is read:
the result is the error for every state of the record source, never a
tree. -/
theorem C10_theorem (rev : String → Option String) (menuItems : Option (List MenuItem)) :
    draw_menu rev none menuItems = .error .missingRequest := rfl

/-- C1 counterexample: the claim says at most one node of the output
carries `active = true`.  On two root records both resolving to the
current location `/x`, the source marks *both* nodes active (`is_active`
is computed per node with no first-match guard on the `active` flag). -/
theorem C1_counterexample :
    activeCount (draw_menu rev0 (some "/x") (some [itemA, itemB])) = 2 := by rfl

/-- C2 counterexample: the claim says `open = true` holds exactly for
the active node and its strict ancestors.  On two root records both
resolving to `/x`, the first pre-order match is an active node (the
spec's own tie-break even calls it "the" active node) yet its `open`
flag stays false — only the *last* match is opened: exactly one node is
active-but-not-open. -/
theorem C2_counterexample :
    activeNotOpenCount (draw_menu rev0 (some "/x") (some [itemA, itemB])) = 1 := by rfl

/-! ### Structural lemmas about the builder -/

/-- Inverting one successful `build_subtree` step: the node wraps the
item, records the location match in `active`, starts `open := false`,
and its children were built from the grouping lookup of its id. -/
theorem build_subtree_succ_some {rev : String → Option String} {items : List MenuItem}
    {cur : String} {f : Nat} {item : MenuItem} {n : TNode}
    (h : build_subtree rev items cur (f + 1) item = some n) :
    ∃ cs, build_forest rev items cur f (build_tree items (some item.id)) = some cs
      ∧ n = TNode.mk item cs (decide (get_absolute_url rev item = cur)) false := by
  rw [build_subtree] at h
  cases hb : build_forest rev items cur f (build_tree items (some item.id)) with
  | none => rw [hb] at h; exact absurd h (by simp)
  | some cs =>
    rw [hb] at h
    exact ⟨cs, rfl, by simpa using h.symm⟩

/-- The top level of a successfully built forest wraps exactly the given
sibling list, in order. -/
theorem build_forest_roots {rev : String → Option String} {items : List MenuItem}
    {cur : String} {f : Nat} {rs : List MenuItem} {ts : List TNode}
    (h : build_forest rev items cur f rs = some ts) :
    ts.map TNode.item = rs := by
  rw [build_forest_eq_optMap, optMap_eq_some_iff] at h
  induction h with
  | nil => rfl
  | cons hg _ ih =>
    cases f with
    | zero => exact absurd hg (by rw [build_subtree]; simp)
    | succ f =>
      obtain ⟨cs, _, rfl⟩ := build_subtree_succ_some hg
      simpa [TNode.item] using ih

/-- Every record of a grouping-map sequence comes from the item list. -/
theorem build_tree_subset {items : List MenuItem} {k : Option Nat} {r : MenuItem}
    (h : r ∈ build_tree items k) : r ∈ items := by
  unfold build_tree at h
  rw [List.mem_insertionSort, List.mem_filter] at h
  exact h.1

/-- Appending distributes over pre-order listing. -/
theorem forestPre_append (ts us : List TNode) :
    forestPre (ts ++ us) = forestPre ts ++ forestPre us := by
  induction ts with
  | nil => rfl
  | cons n ns ih => rw [List.cons_append, forestPre, forestPre, ih, List.append_assoc]

/-- Master description of every node of a successfully built forest: it
wraps an item drawn from the sibling list or from some grouping
sequence, its children were built (at smaller fuel) from the grouping
lookup of its item's id, its `active` flag records the location match
and its `open` flag is still false. -/
theorem build_forest_nodes (rev : String → Option String) (items : List MenuItem)
    (cur : String) :
    ∀ f rs ts, build_forest rev items cur f rs = some ts →
    ∀ n ∈ forestPre ts,
      (n.item ∈ rs ∨ ∃ p, n.item ∈ build_tree items (some p))
      ∧ (∃ g, g < f ∧ build_forest rev items cur g (build_tree items (some n.item.id)) = some n.children)
      ∧ n = TNode.mk n.item n.children (decide (get_absolute_url rev n.item = cur)) false := by
  intro f
  induction f with
  | zero =>
    intro rs ts h n hn
    cases rs with
    | nil =>
      rw [build_forest] at h
      cases h
      simp [forestPre] at hn
    | cons r rs => exact absurd h (by rw [build_forest]; simp)
  | succ f ihf =>
    intro rs
    induction rs with
    | nil =>
      intro ts h n hn
      rw [build_forest_eq_optMap, optMap] at h
      cases h
      simp [forestPre] at hn
    | cons r rs' ihrs =>
      intro ts h n hn
      rw [build_forest_eq_optMap] at h
      obtain ⟨n₀, ns, hsub, hrest, rfl⟩ := optMap_cons_some h
      obtain ⟨cs, hcs, rfl⟩ := build_subtree_succ_some hsub
      rw [forestPre] at hn
      rcases List.mem_append.1 hn with hn | hn
      · rw [nodePre] at hn
        rcases List.mem_cons.1 hn with rfl | hn
        · exact ⟨Or.inl (List.mem_cons_self _ _),
            ⟨f, Nat.lt_succ_self f, by simpa [TNode.item, TNode.children] using hcs⟩,
            by simp [TNode.item, TNode.children, TNode.active, TNode.isOpen]⟩
        · obtain ⟨ho, hch, hsh⟩ := ihf (build_tree items (some r.id)) cs hcs n hn
          refine ⟨?_, ⟨hch.choose, Nat.lt_succ_of_lt hch.choose_spec.1, hch.choose_spec.2⟩, hsh⟩
          rcases ho with ho | ho
          · exact Or.inr ⟨r.id, ho⟩
          · exact Or.inr ho
      · have h' : build_forest rev items cur (f + 1) rs' = some ns := by
          rw [build_forest_eq_optMap]; exact hrest
        obtain ⟨ho, hch, hsh⟩ := ihrs ns h' n hn
        refine ⟨?_, hch, hsh⟩
        rcases ho with ho | ho
        · exact Or.inl (List.mem_cons_of_mem _ ho)
        · exact Or.inr ho

/-! ### Structural lemmas about the marking pass -/

/-- Marking keeps the wrapped record. -/
theorem markNode_item (g : Nat → Bool) (j : Nat) (n : TNode) :
    (markNode g j n).item = n.item := by
  cases n; rfl

/-- Marking keeps the `active` flag. -/
theorem markNode_active (g : Nat → Bool) (j : Nat) (n : TNode) :
    (markNode g j n).active = n.active := by
  cases n; rfl

/-- Marking a node marks its children forest starting one position
further. -/
theorem markNode_children (g : Nat → Bool) (j : Nat) (n : TNode) :
    (markNode g j n).children = markForest g (j + 1) n.children := by
  cases n; rfl

/-- Marking keeps the top-level record sequence of a forest. -/
theorem markForest_map_item (g : Nat → Bool) (j : Nat) (ts : List TNode) :
    (markForest g j ts).map TNode.item = ts.map TNode.item := by
  induction ts generalizing j with
  | nil => rfl
  | cons n ns ih => rw [markForest, List.map_cons, List.map_cons, markNode_item, ih]

mutual

/-- Every node of a marked tree is the marking, at some position, of a
node of the original tree. -/
theorem mem_nodePre_mark (g : Nat → Bool) (j : Nat) (n : TNode) :
    ∀ n' ∈ nodePre (markNode g j n), ∃ n₀ ∈ nodePre n, ∃ j', n' = markNode g j' n₀
  | n', h => by
    cases n with
    | mk it cs a o =>
      rw [markNode, nodePre] at h
      rcases List.mem_cons.1 h with rfl | h
      · exact ⟨.mk it cs a o, List.mem_cons_self _ _, j, rfl⟩
      · obtain ⟨n₀, hn₀, j', rfl⟩ := mem_forestPre_mark g (j + 1) cs n' h
        exact ⟨n₀, by rw [nodePre]; exact List.mem_cons_of_mem _ hn₀, j', rfl⟩

/-- Every node of a marked forest is the marking, at some position, of a
node of the original forest. -/
theorem mem_forestPre_mark (g : Nat → Bool) (j : Nat) (ts : List TNode) :
    ∀ n' ∈ forestPre (markForest g j ts), ∃ n₀ ∈ forestPre ts, ∃ j', n' = markNode g j' n₀
  | n', h => by
    cases ts with
    | nil => exact absurd h (by rw [markForest, forestPre]; simp)
    | cons n ns =>
      rw [markForest, forestPre] at h
      rcases List.mem_append.1 h with h | h
      · obtain ⟨n₀, hn₀, j', rfl⟩ := mem_nodePre_mark g j n n' h
        exact ⟨n₀, by rw [forestPre]; exact List.mem_append_left _ hn₀, j', rfl⟩
      · obtain ⟨n₀, hn₀, j', rfl⟩ :=
          mem_forestPre_mark g (j + (nodePre n).length) ns n' h
        exact ⟨n₀, by rw [forestPre]; exact List.mem_append_right _ hn₀, j', rfl⟩

end

/-! ### Inverting a successful draw_menu call -/

/-- A successful tag call is a successful core computation. -/
theorem draw_menu_ok {rev : String → Option String} {cur : String} {items : List MenuItem}
    {out : List TNode} (h : draw_menu rev (some cur) (some items) = .ok out) :
    draw_menu_core rev items cur = some out := by
  simp only [draw_menu] at h
  cases hc : draw_menu_core rev items cur with
  | none => simp only [hc] at h; simp at h
  | some ts => simp only [hc] at h; simpa using h

/-- Case analysis of a successful core computation: the forest was
materialized, and the output is either the raw forest (no location
matched) or the forest with the recorded active item's `node_map`
positions — its ancestor chain plus itself — opened. -/
theorem draw_menu_core_cases {rev : String → Option String} {items : List MenuItem}
    {cur : String} {out : List TNode} (h : draw_menu_core rev items cur = some out) :
    ∃ ts, build_forest rev items cur (items.length + 1) (build_tree items none) = some ts
      ∧ ((activeItem rev cur ts = none ∧ out = ts)
        ∨ ∃ act ancs, activeItem rev cur ts = some act
            ∧ ancestors items (items.length + 1) act.parent_id = some ancs
            ∧ out = markForest
                (fun j => decide (j ∈ (ancs.map MenuItem.id ++ [act.id]).filterMap
                  (lastIdxOf (forestItems ts)))) 0 ts) := by
  unfold draw_menu_core at h
  cases hb : build_forest rev items cur (items.length + 1) (build_tree items none) with
  | none => simp only [hb] at h; simp at h
  | some ts =>
    simp only [hb] at h
    refine ⟨ts, rfl, ?_⟩
    cases ha : activeItem rev cur ts with
    | none =>
      simp only [ha] at h
      exact Or.inl ⟨rfl, by simpa using h.symm⟩
    | some act =>
      simp only [ha] at h
      cases hanc : ancestors items (items.length + 1) act.parent_id with
      | none => simp only [hanc] at h; simp at h
      | some ancs =>
        simp only [hanc] at h
        exact Or.inr ⟨act, ancs, rfl, hanc, by simpa using h.symm⟩

/-! ### Claims C1 (amended part), C6, C9 -/

/-- C1 amended: uniqueness of the active node fails; instead, for every
successful call *every* node whose resolved location equals the current
location carries `active = true`, and every other node carries
`active = false` (the `is_active` comparison is stored per node with no
first-match guard).  The single recorded `active_item`, which drives the
open-marking, is the *last* pre-order match, not the first. -/
theorem C1_theorem (rev : String → Option String) (items : List MenuItem) (cur : String)
    (out : List TNode) (hok : draw_menu rev (some cur) (some items) = .ok out) :
    ∀ n ∈ forestPre out, n.active = decide (get_absolute_url rev n.item = cur) := by
  obtain ⟨ts, hb, hcase⟩ := draw_menu_core_cases (draw_menu_ok hok)
  have hts : ∀ n ∈ forestPre ts, n.active = decide (get_absolute_url rev n.item = cur) := by
    intro n hn
    obtain ⟨-, -, hsh⟩ := build_forest_nodes rev items cur _ _ _ hb n hn
    simpa [TNode.active] using congrArg TNode.active hsh
  rcases hcase with ⟨-, rfl⟩ | ⟨act, ancs, -, -, rfl⟩
  · exact hts
  · intro n' hn'
    obtain ⟨n₀, hn₀, j', rfl⟩ := mem_forestPre_mark _ 0 ts n' hn'
    rw [markNode_active, markNode_item]
    exact hts n₀ hn₀

/-- C1 witness: on the two-match input, the first produced node is
active exactly because its resolved location is the current location. -/
theorem C1_witness :
    TNode.active (TNode.mk itemA [] true false)
      = decide (get_absolute_url rev0 (TNode.item (TNode.mk itemA [] true false)) = "/x") :=
  C1_theorem rev0 [itemA, itemB] "/x"
    [TNode.mk itemA [] true false, TNode.mk itemB [] true true] (by rfl)
    (TNode.mk itemA [] true false) (by simp [forestPre, nodePre])

/-- C6: the grouping map of `build_tree` keys every record by its
`parent_id` (sentinel for none), every per-key sequence is sorted by
`(order, id)` ascending, and consequently the sibling sequence of any
node of the output tree is non-decreasing in `(order, id)`. -/
theorem C6_theorem (items : List MenuItem) (k : Option Nat) :
    List.Sorted keyLE (build_tree items k)
    ∧ (∀ r, r ∈ build_tree items k ↔ (r ∈ items ∧ r.parent_id = k))
    ∧ ∀ rev cur out, draw_menu rev (some cur) (some items) = .ok out →
        ∀ n ∈ forestPre out, List.Sorted keyLE (n.children.map TNode.item) := by
  refine ⟨List.sorted_insertionSort keyLE _, ?_, ?_⟩
  · intro r
    unfold build_tree
    rw [List.mem_insertionSort, List.mem_filter]
    simp
  · intro rev cur out hok
    obtain ⟨ts, hb, hcase⟩ := draw_menu_core_cases (draw_menu_ok hok)
    have hts : ∀ n ∈ forestPre ts, List.Sorted keyLE (n.children.map TNode.item) := by
      intro n hn
      obtain ⟨-, ⟨g, -, hch⟩, -⟩ := build_forest_nodes rev items cur _ _ _ hb n hn
      rw [build_forest_roots hch]
      exact List.sorted_insertionSort keyLE _
    rcases hcase with ⟨-, rfl⟩ | ⟨act, ancs, -, -, rfl⟩
    · exact hts
    · intro n' hn'
      obtain ⟨n₀, hn₀, j', rfl⟩ := mem_forestPre_mark _ 0 ts n' hn'
      rw [markNode_children, markForest_map_item]
      exact hts n₀ hn₀

/-- C6 witness: on the worked scenario the root's sibling sequence of
children is sorted by `(order, id)`. -/
theorem C6_witness :
    List.Sorted keyLE ((TNode.children specNodeRoot).map TNode.item) :=
  (C6_theorem [specRoot, specAbout, specContact] none).2.2 rev0 "/about" [specNodeRoot]
    (by rfl) specNodeRoot (by simp [specNodeRoot, forestPre, nodePre])

/-- C9: the call never mutates its inputs: every node of the output
wraps, unchanged, a record of the caller's input list (the `'item'`
entry is one of the input values, not an altered copy), and the call is
a pure function of its arguments, so repeated calls with the same inputs
produce equal outputs. -/
theorem C9_theorem (rev : String → Option String) (items : List MenuItem) (cur : String)
    (out : List TNode) (hok : draw_menu rev (some cur) (some items) = .ok out) :
    (∀ n ∈ forestPre out, n.item ∈ items)
    ∧ draw_menu rev (some cur) (some items) = draw_menu rev (some cur) (some items) := by
  refine ⟨?_, rfl⟩
  obtain ⟨ts, hb, hcase⟩ := draw_menu_core_cases (draw_menu_ok hok)
  have hts : ∀ n ∈ forestPre ts, n.item ∈ items := by
    intro n hn
    obtain ⟨ho, -, -⟩ := build_forest_nodes rev items cur _ _ _ hb n hn
    rcases ho with ho | ⟨p, ho⟩
    · exact build_tree_subset ho
    · exact build_tree_subset ho
  rcases hcase with ⟨-, rfl⟩ | ⟨act, ancs, -, -, rfl⟩
  · exact hts
  · intro n' hn'
    obtain ⟨n₀, hn₀, j', rfl⟩ := mem_forestPre_mark _ 0 ts n' hn'
    rw [markNode_item]
    exact hts n₀ hn₀

/-- C9 witness: on the worked scenario the produced root node wraps a
record of the input list. -/
theorem C9_witness :
    TNode.item specNodeRoot ∈ [specRoot, specAbout, specContact] :=
  (C9_theorem rev0 [specRoot, specAbout, specContact] "/about" [specNodeRoot] (by rfl)).1
    specNodeRoot (by simp [specNodeRoot, forestPre, nodePre])

/-! ### Lemmas about foreign-key chains -/

/-- A foreign-key parent is a record of the group. -/
theorem fkParent_mem {items : List MenuItem} {x p : MenuItem}
    (h : fkParent items x = some p) : p ∈ items := by
  unfold fkParent at h
  cases hp : x.parent_id with
  | none => simp only [hp] at h; exact absurd h (by simp)
  | some pid => simp only [hp] at h; exact List.mem_of_find?_eq_some h

/-- A foreign-key parent carries the id the child points at. -/
theorem fkParent_parent_id {items : List MenuItem} {x p : MenuItem}
    (h : fkParent items x = some p) : x.parent_id = some p.id := by
  unfold fkParent at h
  cases hp : x.parent_id with
  | none => simp only [hp] at h; exact absurd h (by simp)
  | some pid =>
    simp only [hp] at h
    have hid : p.id = pid := by simpa using List.find?_some h
    rw [hid]

/-- With unique ids, looking a record's own id up finds that record. -/
theorem find_self {items : List MenuItem} (hnd : (items.map MenuItem.id).Nodup)
    {x : MenuItem} (hx : x ∈ items) :
    items.find? (fun r => decide (r.id = x.id)) = some x := by
  induction items with
  | nil => exact absurd hx (by simp)
  | cons y ys ih =>
    rw [List.map_cons, List.nodup_cons] at hnd
    rcases List.mem_cons.1 hx with rfl | hx'
    · exact List.find?_cons_of_pos _ (by simp)
    · have hne : y.id ≠ x.id := by
        intro he
        exact hnd.1 (by rw [he]; exact List.mem_map_of_mem MenuItem.id hx')
      rw [List.find?_cons_of_neg _ (by simpa using hne)]
      exact ih hnd.2 hx'

/-- With unique ids, equal ids mean equal records. -/
theorem id_inj {items : List MenuItem} (hnd : (items.map MenuItem.id).Nodup)
    {x y : MenuItem} (hx : x ∈ items) (hy : y ∈ items) (h : x.id = y.id) : x = y :=
  List.inj_on_of_nodup_map hnd hx hy h

/-- With unique ids, a record pointing at `t.id` has `t` as its
foreign-key parent. -/
theorem fkParent_child {items : List MenuItem} (hnd : (items.map MenuItem.id).Nodup)
    {c t : MenuItem} (hcp : c.parent_id = some t.id) (ht : t ∈ items) :
    fkParent items c = some t := by
  unfold fkParent
  rw [hcp]
  exact find_self hnd ht

/-- Membership in a grouping-map sequence, spelled out. -/
theorem mem_build_tree {items : List MenuItem} {k : Option Nat} {r : MenuItem} :
    r ∈ build_tree items k ↔ (r ∈ items ∧ r.parent_id = k) := by
  unfold build_tree
  rw [List.mem_insertionSort, List.mem_filter]
  simp

/-- Reachability is monotone in the step bound. -/
theorem reaches_mono {items : List MenuItem} {f f' : Nat} {x t : MenuItem}
    (hf : f ≤ f') (h : reaches items f x t = true) : reaches items f' x t = true := by
  induction f generalizing x f' with
  | zero => rw [reaches] at h; exact absurd h (by simp)
  | succ f ih =>
    obtain ⟨g, rfl⟩ : ∃ g, f' = g + 1 := ⟨f' - 1, by omega⟩
    rw [reaches] at h ⊢
    rcases (Bool.or_eq_true _ _).mp h with h1 | h2
    · rw [h1]; rfl
    · cases hfk : fkParent items x with
      | none => simp [hfk] at h2
      | some p =>
        simp only [hfk] at h2 ⊢
        rw [ih (by omega) h2]
        simp

/-- Every record reaches itself in zero steps. -/
theorem reaches_self {items : List MenuItem} {f : Nat} {x : MenuItem} (hf : 1 ≤ f) :
    reaches items f x x = true := by
  obtain ⟨g, rfl⟩ : ∃ g, f = g + 1 := ⟨f - 1, by omega⟩
  rw [reaches]
  simp

/-- Prepending the first parent step. -/
theorem reaches_step {items : List MenuItem} {f : Nat} {x p t : MenuItem}
    (hfk : fkParent items x = some p) (h : reaches items f p t = true) :
    reaches items (f + 1) x t = true := by
  rw [reaches]
  simp only [hfk]
  rw [h]
  simp

/-- Appending a final parent step. -/
theorem reaches_step_up {items : List MenuItem} {f : Nat} {x c t : MenuItem}
    (h : reaches items f x c = true) (hfk : fkParent items c = some t) :
    reaches items (f + 1) x t = true := by
  induction f generalizing x with
  | zero => rw [reaches] at h; exact absurd h (by simp)
  | succ f ih =>
    rw [reaches] at h
    rcases (Bool.or_eq_true _ _).mp h with h1 | h2
    · have hxc : x = c := of_decide_eq_true h1
      subst hxc
      exact reaches_step hfk (reaches_self (by omega))
    · cases hfk2 : fkParent items x with
      | none => simp [hfk2] at h2
      | some p =>
        simp only [hfk2] at h2
        exact reaches_step hfk2 (ih h2)

/-- Splitting off the last parent step, with one unit of fuel
recovered: a non-trivial bounded chain to `t` enters `t` from some
record `c` whose foreign-key parent is `t`. -/
theorem reaches_split {items : List MenuItem} {f : Nat} {x t : MenuItem}
    (h : reaches items (f + 1) x t = true) :
    x = t ∨ ∃ c, fkParent items c = some t ∧ reaches items f x c = true
      ∧ (c = x ∨ c ∈ items) := by
  induction f generalizing x with
  | zero =>
    rw [reaches] at h
    rcases (Bool.or_eq_true _ _).mp h with h1 | h2
    · exact Or.inl (of_decide_eq_true h1)
    · cases hfk : fkParent items x with
      | none => simp [hfk] at h2
      | some p => simp [hfk, reaches] at h2
  | succ f ih =>
    rw [reaches] at h
    rcases (Bool.or_eq_true _ _).mp h with h1 | h2
    · exact Or.inl (of_decide_eq_true h1)
    · cases hfk : fkParent items x with
      | none => simp [hfk] at h2
      | some p =>
        simp only [hfk] at h2
        rcases ih h2 with rfl | ⟨c, hc1, hc2, hc3⟩
        · exact Or.inr ⟨x, hfk, reaches_self (by omega), Or.inl rfl⟩
        · refine Or.inr ⟨c, hc1, reaches_step hfk hc2, Or.inr ?_⟩
          rcases hc3 with rfl | hc3
          · exact fkParent_mem hfk
          · exact hc3

/-- Chains are deterministic: two bounded chains from the same record
funnel, so one endpoint reaches the other. -/
theorem reaches_funnel {items : List MenuItem} {f : Nat} {y a b : MenuItem}
    (ha : reaches items f y a = true) (hb : reaches items f y b = true) :
    reaches items f a b = true ∨ reaches items f b a = true := by
  induction f generalizing y with
  | zero => rw [reaches] at ha; exact absurd ha (by simp)
  | succ f ih =>
    by_cases hya : y = a
    · subst hya; exact Or.inl hb
    · by_cases hyb : y = b
      · subst hyb; exact Or.inr ha
      · rw [reaches] at ha hb
        rcases (Bool.or_eq_true _ _).mp ha with h1 | ha2
        · exact absurd (of_decide_eq_true h1) hya
        · rcases (Bool.or_eq_true _ _).mp hb with h1 | hb2
          · exact absurd (of_decide_eq_true h1) hyb
          · cases hfk : fkParent items y with
            | none => simp [hfk] at ha2
            | some p =>
              simp only [hfk] at ha2 hb2
              rcases ih ha2 hb2 with h | h
              · exact Or.inl (reaches_mono (by omega) h)
              · exact Or.inr (reaches_mono (by omega) h)

/-! ### Membership lemmas for built forests -/

/-- Pre-order listing of a forest member's subtree sits inside the
forest's pre-order listing. -/
theorem nodePre_sub_forestPre {n : TNode} {ts : List TNode} (hn : n ∈ ts) :
    ∀ m ∈ nodePre n, m ∈ forestPre ts := by
  induction ts with
  | nil => exact absurd hn (by simp)
  | cons n' ns ih =>
    intro m hm
    rw [forestPre]
    rcases List.mem_cons.1 hn with rfl | hn'
    · exact List.mem_append_left _ hm
    · exact List.mem_append_right _ (ih hn' m hm)

/-- The pre-order listing of a node, unfolded through `map`. -/
theorem nodeItems_mk (it : MenuItem) (cs : List TNode) (a o : Bool) :
    nodeItems (.mk it cs a o) = it :: forestItems cs := rfl

/-- The record listing of a forest, unfolded one node. -/
theorem forestItems_cons (n : TNode) (ns : List TNode) :
    forestItems (n :: ns) = nodeItems n ++ forestItems ns := by
  unfold forestItems nodeItems
  rw [forestPre, List.map_append]

/-- Every node of a built forest lies in the subtree built for one of
the sibling records. -/
theorem mem_forestPre_build {rev : String → Option String} {items : List MenuItem}
    {cur : String} {f : Nat} {rs : List MenuItem} {ts : List TNode}
    (h : build_forest rev items cur f rs = some ts) {m : TNode} (hm : m ∈ forestPre ts) :
    ∃ r ∈ rs, ∃ n', build_subtree rev items cur f r = some n' ∧ m ∈ nodePre n' := by
  rw [build_forest_eq_optMap] at h
  induction rs generalizing ts with
  | nil =>
    rw [optMap] at h
    cases h
    simp [forestPre] at hm
  | cons r' rs' ih =>
    obtain ⟨n, ns, hg, ho, rfl⟩ := optMap_cons_some h
    rw [forestPre] at hm
    rcases List.mem_append.1 hm with hm | hm
    · exact ⟨r', List.mem_cons_self _ _, n, hg, hm⟩
    · obtain ⟨r'', hr'', n', hsub, hm'⟩ := ih ho hm
      exact ⟨r'', List.mem_cons_of_mem _ hr'', n', hsub, hm'⟩

/-- A successful forest build succeeds on each sibling. -/
theorem build_forest_elem {rev : String → Option String} {items : List MenuItem}
    {cur : String} {f : Nat} {rs : List MenuItem} {ts : List TNode}
    (h : build_forest rev items cur f rs = some ts) {r : MenuItem} (hr : r ∈ rs) :
    ∃ n ∈ ts, build_subtree rev items cur f r = some n := by
  rw [build_forest_eq_optMap] at h
  induction rs generalizing ts with
  | nil => exact absurd hr (by simp)
  | cons r' rs' ih =>
    obtain ⟨n, ns, hg, ho, rfl⟩ := optMap_cons_some h
    rcases List.mem_cons.1 hr with rfl | hr'
    · exact ⟨n, List.mem_cons_self _ _, hg⟩
    · obtain ⟨m, hm, hsub⟩ := ih ho hr'
      exact ⟨m, List.mem_cons_of_mem _ hm, hsub⟩

/-- A record sitting on a foreign-key parent cycle can never be built:
descending the cycle consumes all fuel, so the build fails at every fuel
(Python's unbounded recursion).  In particular cycle members are never
part of a successfully built forest. -/
theorem build_subtree_no_cycle {rev : String → Option String} {items : List MenuItem}
    {cur : String} :
    ∀ f' item, item ∈ items → (∃ g, sreach items g item item = true) →
    build_subtree rev items cur f' item = none := by
  intro f'
  induction f' with
  | zero => intro item _ _; rfl
  | succ f' ih =>
    rintro item hitem ⟨g, hcyc⟩
    unfold sreach at hcyc
    cases hfk : fkParent items item with
    | none => simp [hfk] at hcyc
    | some p1 =>
      simp only [hfk] at hcyc
      cases g with
      | zero => rw [reaches] at hcyc; exact absurd hcyc (by simp)
      | succ g' =>
        have hchild : ∃ c₀, c₀ ∈ items ∧ c₀.parent_id = some item.id
            ∧ ∃ g₀, sreach items g₀ c₀ c₀ = true := by
          rcases reaches_split hcyc with heq | ⟨c, hc1, hc2, hc3⟩
          · rw [heq] at hfk
            refine ⟨item, hitem, fkParent_parent_id hfk, 1, ?_⟩
            unfold sreach
            simp only [hfk]
            exact reaches_self (by omega)
          · have hcmem : c ∈ items := by
              rcases hc3 with rfl | hc3
              · exact fkParent_mem hfk
              · exact hc3
            refine ⟨c, hcmem, fkParent_parent_id hc1, g' + 1, ?_⟩
            unfold sreach
            simp only [hc1]
            exact reaches_step hfk hc2
        obtain ⟨c₀, hc₀items, hc₀pid, g₀, hcyc₀⟩ := hchild
        cases hb : build_subtree rev items cur (f' + 1) item with
        | none => rfl
        | some n =>
          obtain ⟨cs, hcs, -⟩ := build_subtree_succ_some hb
          have hc₀mem : c₀ ∈ build_tree items (some item.id) :=
            mem_build_tree.mpr ⟨hc₀items, hc₀pid⟩
          obtain ⟨n₀, -, hsub₀⟩ := build_forest_elem hcs hc₀mem
          rw [ih c₀ hc₀items ⟨g₀, hcyc₀⟩] at hsub₀
          exact absurd hsub₀ (by simp)

/-- Main membership characterization: with unique ids, a record appears
in a successfully built subtree of `item` exactly when it is a group
record whose bounded foreign-key chain passes through `item`. -/
theorem build_subtree_items_iff {rev : String → Option String} {items : List MenuItem}
    {cur : String} (hnd : (items.map MenuItem.id).Nodup) :
    ∀ f item n, item ∈ items → build_subtree rev items cur f item = some n →
    ∀ x, x ∈ nodeItems n ↔ (x ∈ items ∧ reaches items f x item = true) := by
  intro f
  induction f with
  | zero =>
    intro item n _ h
    simp [build_subtree] at h
  | succ f ih =>
    intro item n hitem h x
    obtain ⟨cs, hcs, rfl⟩ := build_subtree_succ_some h
    rw [nodeItems_mk]
    constructor
    · intro hx
      rcases List.mem_cons.1 hx with rfl | hx'
      · exact ⟨hitem, reaches_self (by omega)⟩
      · obtain ⟨m, hm, rfl⟩ := List.mem_map.1 hx'
        obtain ⟨c, hc, n', hsub, hm'⟩ := mem_forestPre_build hcs hm
        have hcprops : c ∈ items ∧ c.parent_id = some item.id := mem_build_tree.1 hc
        have hx2 : m.item ∈ nodeItems n' := List.mem_map_of_mem TNode.item hm'
        have h2 := (ih c n' hcprops.1 hsub m.item).1 hx2
        refine ⟨h2.1, ?_⟩
        have hfkc : fkParent items c = some item := fkParent_child hnd hcprops.2 hitem
        exact reaches_step_up h2.2 hfkc
    · rintro ⟨hxitems, hr⟩
      rcases reaches_split hr with heq | ⟨c, hc1, hc2, hc3⟩
      · rw [heq]
        exact List.mem_cons_self _ _
      · have hcmem : c ∈ items := by
          rcases hc3 with rfl | hc3
          · exact hxitems
          · exact hc3
        have hcpid : c.parent_id = some item.id := fkParent_parent_id hc1
        have hcbt : c ∈ build_tree items (some item.id) := mem_build_tree.2 ⟨hcmem, hcpid⟩
        obtain ⟨n', hn', hsub⟩ := build_forest_elem hcs hcbt
        have hx' : x ∈ nodeItems n' := (ih c n' hcmem hsub x).2 ⟨hxitems, hc2⟩
        apply List.mem_cons_of_mem
        unfold nodeItems at hx'
        obtain ⟨m, hm, heq⟩ := List.mem_map.1 hx'
        rw [← heq]
        exact List.mem_map_of_mem _ (nodePre_sub_forestPre hn' m hm)

/-- Forest-level membership characterization: with unique ids, the
records of a successfully built forest are exactly the group records
whose bounded foreign-key chain passes through one of the siblings. -/
theorem build_forest_items_iff {rev : String → Option String} {items : List MenuItem}
    {cur : String} (hnd : (items.map MenuItem.id).Nodup) {f : Nat} {rs : List MenuItem}
    {ts : List TNode} (h : build_forest rev items cur f rs = some ts)
    (hrs : ∀ r ∈ rs, r ∈ items) :
    ∀ x, x ∈ forestItems ts ↔ ∃ r ∈ rs, x ∈ items ∧ reaches items f x r = true := by
  intro x
  constructor
  · intro hx
    obtain ⟨m, hm, rfl⟩ := List.mem_map.1 hx
    obtain ⟨r, hr, n', hsub, hm'⟩ := mem_forestPre_build h hm
    have hx2 : m.item ∈ nodeItems n' := List.mem_map_of_mem TNode.item hm'
    exact ⟨r, hr, (build_subtree_items_iff hnd f r n' (hrs r hr) hsub m.item).1 hx2⟩
  · rintro ⟨r, hr, hx, hreach⟩
    obtain ⟨n', hn', hsub⟩ := build_forest_elem h hr
    have hx' : x ∈ nodeItems n' :=
      (build_subtree_items_iff hnd f r n' (hrs r hr) hsub x).2 ⟨hx, hreach⟩
    unfold nodeItems at hx'
    obtain ⟨m, hm, heq⟩ := List.mem_map.1 hx'
    rw [← heq]
    exact List.mem_map_of_mem _ (nodePre_sub_forestPre hn' m hm)

/-- With unique input ids, a successfully built forest visits no record
twice: the ids of its pre-order record listing are distinct.  The
sibling list must consist of group records whose subtrees cannot
overlap (`hsep`); the grouping lists used by `draw_menu` satisfy this. -/
theorem build_forest_items_nodup {rev : String → Option String} {items : List MenuItem}
    {cur : String} (hnd : (items.map MenuItem.id).Nodup) :
    ∀ f rs ts, build_forest rev items cur f rs = some ts →
    rs.Nodup → (∀ c ∈ rs, c ∈ items) →
    (∀ c1 ∈ rs, ∀ c2 ∈ rs, c1 ≠ c2 →
      ∀ y, reaches items f y c1 = true → reaches items f y c2 = true → False) →
    ((forestItems ts).map MenuItem.id).Nodup := by
  intro f
  induction f with
  | zero =>
    intro rs ts h _ _ _
    cases rs with
    | nil =>
      rw [build_forest] at h
      cases h
      simp [forestItems, forestPre]
    | cons r rs' => exact absurd h (by rw [build_forest]; simp)
  | succ f ihf =>
    intro rs
    induction rs with
    | nil =>
      intro ts h _ _ _
      rw [build_forest_eq_optMap, optMap] at h
      cases h
      simp [forestItems, forestPre]
    | cons r rs' ihrs =>
      intro ts h hnodup hmem hsep
      rw [build_forest_eq_optMap] at h
      obtain ⟨n₀, ns, hsub, hrest, rfl⟩ := optMap_cons_some h
      have hrest' : build_forest rev items cur (f + 1) rs' = some ns := by
        rw [build_forest_eq_optMap]; exact hrest
      obtain ⟨cs, hcs, rfl⟩ := build_subtree_succ_some hsub
      have hritems : r ∈ items := hmem r (List.mem_cons_self _ _)
      rw [forestItems_cons, List.map_append, List.nodup_append]
      refine ⟨?_, ?_, ?_⟩
      · -- distinct ids inside the head subtree
        rw [nodeItems_mk, List.map_cons, List.nodup_cons]
        constructor
        · -- the head record does not reappear below itself
          intro hin
          obtain ⟨y, hy, hyid⟩ := List.mem_map.1 hin
          obtain ⟨m, hm, rfl⟩ := List.mem_map.1 hy
          obtain ⟨c, hc, n', hsubc, hm'⟩ := mem_forestPre_build hcs hm
          have hcprops := mem_build_tree.1 hc
          have hy2 : m.item ∈ nodeItems n' := List.mem_map_of_mem TNode.item hm'
          have h2 := (build_subtree_items_iff hnd f c n' hcprops.1 hsubc m.item).1 hy2
          have hyr : m.item = r := id_inj hnd h2.1 hritems hyid
          have hfkc : fkParent items c = some r := fkParent_child hnd hcprops.2 hritems
          have hcycc : sreach items f c c = true := by
            unfold sreach
            simp only [hfkc]
            rw [hyr] at h2
            exact h2.2
          rw [build_subtree_no_cycle f c hcprops.1 ⟨f, hcycc⟩] at hsubc
          exact absurd hsubc (by simp)
        · -- the child subtrees have distinct, pairwise disjoint ids
          apply ihf (build_tree items (some r.id)) cs hcs
          · exact ((List.perm_insertionSort keyLE _).nodup_iff).mpr
              ((List.Nodup.of_map MenuItem.id hnd).filter _)
          · intro c hc
            exact build_tree_subset hc
          · intro c1 hc1 c2 hc2 hne y hy1 hy2
            have hp1 := mem_build_tree.1 hc1
            have hp2 := mem_build_tree.1 hc2
            have key : ∀ a b : MenuItem, a.parent_id = some r.id → b.parent_id = some r.id →
                a ∈ items → b ∈ items → a ≠ b → reaches items f a b = true → False := by
              intro a b hap hbp ha hb hab hr2
              have hfkb : fkParent items b = some r := fkParent_child hnd hbp hritems
              cases f with
              | zero => rw [reaches] at hr2; exact absurd hr2 (by simp)
              | succ f₂ =>
                have hfka : fkParent items a = some r := fkParent_child hnd hap hritems
                rw [reaches] at hr2
                rcases (Bool.or_eq_true _ _).mp hr2 with h1 | h2
                · exact hab (of_decide_eq_true h1)
                · simp only [hfka] at h2
                  have hcycb : sreach items f₂ b b = true := by
                    unfold sreach
                    simp only [hfkb]
                    exact h2
                  have hbbt : b ∈ build_tree items (some r.id) := mem_build_tree.2 ⟨hb, hbp⟩
                  obtain ⟨nb, -, hsubb⟩ := build_forest_elem hcs hbbt
                  rw [build_subtree_no_cycle (f₂ + 1) b hb ⟨f₂, hcycb⟩] at hsubb
                  exact absurd hsubb (by simp)
            rcases reaches_funnel hy1 hy2 with hr2 | hr2
            · exact key c1 c2 hp1.2 hp2.2 hp1.1 hp2.1 hne hr2
            · exact key c2 c1 hp2.2 hp1.2 hp2.1 hp1.1 (Ne.symm hne) hr2
      · -- the tail forest
        apply ihrs ns hrest' (List.nodup_cons.1 hnodup).2
        · intro c hc
          exact hmem c (List.mem_cons_of_mem _ hc)
        · intro c1 hc1 c2 hc2 hne y hy1 hy2
          exact hsep c1 (List.mem_cons_of_mem _ hc1) c2 (List.mem_cons_of_mem _ hc2)
            hne y hy1 hy2
      · -- head subtree and tail forest are id-disjoint
        intro i hi1 hi2
        obtain ⟨y, hy, hyid⟩ := List.mem_map.1 hi1
        obtain ⟨z, hz, hzid⟩ := List.mem_map.1 hi2
        have hy2 := (build_subtree_items_iff hnd (f + 1) r _ hritems hsub y).1 hy
        obtain ⟨m, hm, rfl⟩ := List.mem_map.1 hz
        obtain ⟨c', hc', n', hsubz, hm'⟩ := mem_forestPre_build hrest' hm
        have hz2 := (build_subtree_items_iff hnd (f + 1) c' n'
          (hmem c' (List.mem_cons_of_mem _ hc')) hsubz m.item).1
          (List.mem_map_of_mem TNode.item hm')
        have hyz : y = m.item := id_inj hnd hy2.1 hz2.1 (by rw [hyid, hzid])
        have hrc' : r ≠ c' := by
          intro he
          exact (List.nodup_cons.1 hnodup).1 (he ▸ hc')
        exact hsep r (List.mem_cons_self _ _) c' (List.mem_cons_of_mem _ hc') hrc'
          y hy2.2 (by rw [hyz]; exact hz2.2)

/-- Root records (sentinel parent) head disjoint subtrees: no record
can reach two different roots. -/
theorem roots_sep {items : List MenuItem} (f : Nat) :
    ∀ c1 ∈ build_tree items none, ∀ c2 ∈ build_tree items none, c1 ≠ c2 →
    ∀ y, reaches items f y c1 = true → reaches items f y c2 = true → False := by
  have key : ∀ a b : MenuItem, a.parent_id = none → a ≠ b →
      reaches items f a b = true → False := by
    intro a b hap hab hr
    cases f with
    | zero => rw [reaches] at hr; exact absurd hr (by simp)
    | succ f₂ =>
      rw [reaches] at hr
      rcases (Bool.or_eq_true _ _).mp hr with h1 | h2
      · exact hab (of_decide_eq_true h1)
      · have hfk : fkParent items a = none := by simp [fkParent, hap]
        simp [hfk] at h2
  intro c1 hc1 c2 hc2 hne y hy1 hy2
  rcases reaches_funnel hy1 hy2 with h | h
  · exact key c1 c2 (mem_build_tree.1 hc1).2 hne h
  · exact key c2 c1 (mem_build_tree.1 hc2).2 (Ne.symm hne) h

/-- A bounded chain into a sentinel-parent record is a referentially
valid chain. -/
theorem chainRoot_of_reaches {items : List MenuItem} {f : Nat} {x r : MenuItem}
    (hrp : r.parent_id = none) (h : reaches items f x r = true) :
    chainRoot items f x = true := by
  induction f generalizing x with
  | zero => rw [reaches] at h; exact absurd h (by simp)
  | succ f ih =>
    rw [reaches] at h
    rcases (Bool.or_eq_true _ _).mp h with h1 | h2
    · have hxr : x = r := of_decide_eq_true h1
      rw [chainRoot, hxr, hrp]
      simp
    · cases hfk : fkParent items x with
      | none => simp [hfk] at h2
      | some p =>
        simp only [hfk] at h2
        rw [chainRoot]
        by_cases hxp : x.parent_id = none
        · simp [hxp]
        · simp only [hxp, if_neg, hfk]
          exact ih h2

/-- A referentially valid chain ends at some sentinel-parent record of
the group, which the chain reaches within the same bound. -/
theorem reaches_of_chainRoot {items : List MenuItem} {f : Nat} {x : MenuItem}
    (h : chainRoot items f x = true) (hx : x ∈ items) :
    ∃ r, r ∈ items ∧ r.parent_id = none ∧ reaches items f x r = true := by
  induction f generalizing x with
  | zero => rw [chainRoot] at h; exact absurd h (by simp)
  | succ f ih =>
    rw [chainRoot] at h
    by_cases hxp : x.parent_id = none
    · exact ⟨x, hx, hxp, reaches_self (by omega)⟩
    · rw [if_neg hxp] at h
      cases hfk : fkParent items x with
      | none => simp [hfk] at h
      | some p =>
        simp only [hfk] at h
        obtain ⟨r, hrit, hrp, hre⟩ := ih h (fkParent_mem hfk)
        exact ⟨r, hrit, hrp, reaches_step hfk hre⟩

mutual

/-- Marking keeps the pre-order record listing of a subtree. -/
theorem nodePre_mark_items (g : Nat → Bool) (j : Nat) :
    ∀ n : TNode, (nodePre (markNode g j n)).map TNode.item = (nodePre n).map TNode.item
  | .mk it cs a o => by
    simp only [markNode, nodePre, List.map_cons, TNode.item]
    rw [forestPre_mark_items g (j + 1) cs]

/-- Marking keeps the pre-order record listing of a forest. -/
theorem forestPre_mark_items (g : Nat → Bool) (j : Nat) :
    ∀ ts : List TNode,
      (forestPre (markForest g j ts)).map TNode.item = (forestPre ts).map TNode.item
  | [] => rfl
  | n :: ns => by
    rw [markForest, forestPre, forestPre, List.map_append, List.map_append]
    rw [nodePre_mark_items g j n, forestPre_mark_items g (j + (nodePre n).length) ns]

end

/-- Marking keeps `forestItems`. -/
theorem forestItems_mark (g : Nat → Bool) (j : Nat) (ts : List TNode) :
    forestItems (markForest g j ts) = forestItems ts := by
  unfold forestItems
  exact forestPre_mark_items g j ts

/-- Marking keeps the recorded active item. -/
theorem activeItem_mark (rev : String → Option String) (cur : String) (g : Nat → Bool)
    (j : Nat) (ts : List TNode) :
    activeItem rev cur (markForest g j ts) = activeItem rev cur ts := by
  unfold activeItem
  rw [forestItems_mark]

/-- C5 amended: a record whose `parent_id` matches no id in the group is
*not* treated as a root — it is silently dropped, together with every
record whose parent chain runs through it.  For every successful call
with unique ids, the records appearing in the output tree are exactly
the input records with a referentially valid parent chain (one reaching
the sentinel), and the total number of tree nodes equals the number of
such records; orphan records are not counted. -/
theorem C5_theorem (rev : String → Option String) (items : List MenuItem) (cur : String)
    (out : List TNode) (hnd : (items.map MenuItem.id).Nodup)
    (hok : draw_menu rev (some cur) (some items) = .ok out) :
    (∀ x, x ∈ forestItems out ↔ (x ∈ items ∧ validChain items x = true))
    ∧ (forestItems out).length = (items.filter (validChain items)).length := by
  obtain ⟨ts, hb, hcase⟩ := draw_menu_core_cases (draw_menu_ok hok)
  have hfi : forestItems out = forestItems ts := by
    rcases hcase with ⟨-, rfl⟩ | ⟨act, ancs, -, -, rfl⟩
    · rfl
    · exact forestItems_mark _ 0 ts
  have hroots : ∀ r ∈ build_tree items none, r ∈ items := fun r hr => build_tree_subset hr
  have hmm := build_forest_items_iff hnd hb hroots
  have hiff : ∀ x, x ∈ forestItems ts ↔ (x ∈ items ∧ validChain items x = true) := by
    intro x
    rw [hmm x]
    constructor
    · rintro ⟨r, hr, hx, hre⟩
      exact ⟨hx, chainRoot_of_reaches (mem_build_tree.1 hr).2 hre⟩
    · rintro ⟨hx, hv⟩
      obtain ⟨r, hrit, hrp, hre⟩ := reaches_of_chainRoot hv hx
      exact ⟨r, mem_build_tree.2 ⟨hrit, hrp⟩, hx, hre⟩
  have hrootsnd : (build_tree items none).Nodup :=
    ((List.perm_insertionSort keyLE _).nodup_iff).mpr
      ((List.Nodup.of_map MenuItem.id hnd).filter _)
  have hnodup1 : (forestItems ts).Nodup :=
    List.Nodup.of_map _
      (build_forest_items_nodup hnd _ _ _ hb hrootsnd hroots (roots_sep _))
  have hnodup2 : (items.filter (validChain items)).Nodup :=
    (List.Nodup.of_map MenuItem.id hnd).filter _
  have hperm : (forestItems ts).Perm (items.filter (validChain items)) := by
    rw [List.perm_ext_iff_of_nodup hnodup1 hnodup2]
    intro a
    rw [hiff a, List.mem_filter]
  constructor
  · intro x
    rw [hfi]
    exact hiff x
  · rw [hfi]
    exact hperm.length_eq

/-- C5 witness: the worked scenario satisfies the unique-id hypothesis,
and its three valid-chain records produce exactly three tree nodes. -/
theorem C5_witness :
    (([specRoot, specAbout, specContact].map MenuItem.id).Nodup)
    ∧ (forestItems [specNodeRoot]).length
      = ([specRoot, specAbout, specContact].filter
          (validChain [specRoot, specAbout, specContact])).length :=
  ⟨by decide,
   (C5_theorem rev0 [specRoot, specAbout, specContact] "/about" [specNodeRoot]
     (by decide) (by rfl)).2⟩

/-! ### The node_map position table -/

/-- A `node_map` miss: no record of the listing carries the id. -/
theorem lastIdxOf_eq_none {l : List MenuItem} {i : Nat} :
    lastIdxOf l i = none ↔ ∀ m ∈ l, m.id ≠ i := by
  induction l with
  | nil => simp [lastIdxOf]
  | cons r rs ih =>
    rw [lastIdxOf]
    cases hsub : lastIdxOf rs i with
    | some j =>
      simp only [hsub]
      constructor
      · intro h
        exact absurd h (by simp)
      · intro h
        have hnone : lastIdxOf rs i = none :=
          ih.mpr (fun m hm => h m (List.mem_cons_of_mem _ hm))
        rw [hsub] at hnone
        exact absurd hnone (by simp)
    | none =>
      simp only [hsub]
      by_cases hr : r.id = i
      · rw [if_pos hr]
        constructor
        · intro h
          exact absurd h (by simp)
        · intro h
          exact absurd hr (h r (List.mem_cons_self _ _))
      · rw [if_neg hr]
        constructor
        · intro _ m hm
          rcases List.mem_cons.1 hm with rfl | hm'
          · exact hr
          · exact ih.mp hsub m hm'
        · intro _
          rfl

/-- The position stored in `node_map` for an id holds a record with
that id. -/
theorem lastIdxOf_some {l : List MenuItem} {i k : Nat} (h : lastIdxOf l i = some k) :
    ∃ m, l[k]? = some m ∧ m.id = i := by
  induction l generalizing k with
  | nil => simp [lastIdxOf] at h
  | cons r rs ih =>
    rw [lastIdxOf] at h
    cases hsub : lastIdxOf rs i with
    | some j =>
      simp only [hsub] at h
      have hk : k = j + 1 := by simpa using h.symm
      subst hk
      obtain ⟨m, hm, hid⟩ := ih hsub
      exact ⟨m, by rw [List.getElem?_cons_succ]; exact hm, hid⟩
    | none =>
      simp only [hsub] at h
      by_cases hr : r.id = i
      · rw [if_pos hr] at h
        have hk : k = 0 := by simpa using h.symm
        subst hk
        exact ⟨r, List.getElem?_cons_zero, hr⟩
      · rw [if_neg hr] at h
        exact absurd h (by simp)

/-- When every listed id is distinct, the `node_map` entry of a listed
record's id is exactly that record's position. -/
theorem lastIdxOf_of_getElem {l : List MenuItem} (hnd : (l.map MenuItem.id).Nodup)
    {k : Nat} {m : MenuItem} (hk : l[k]? = some m) :
    lastIdxOf l m.id = some k := by
  induction l generalizing k with
  | nil => simp at hk
  | cons r rs ih =>
    rw [List.map_cons, List.nodup_cons] at hnd
    cases k with
    | zero =>
      rw [List.getElem?_cons_zero] at hk
      have hrm : r = m := by simpa using hk
      subst hrm
      rw [lastIdxOf]
      have hnone : lastIdxOf rs r.id = none := lastIdxOf_eq_none.mpr (by
        intro m' hm' he
        exact hnd.1 (by rw [← he]; exact List.mem_map_of_mem MenuItem.id hm'))
      simp only [hnone]
      simp
    | succ k =>
      rw [List.getElem?_cons_succ] at hk
      rw [lastIdxOf]
      simp only [ih hnd.2 hk]

mutual

/-- Positional effect of the marking pass on a subtree: the node at
pre-order offset `k` keeps its record and `active` flag, and its `open`
flag becomes true exactly when its absolute position `j + k` is marked
(otherwise it keeps its old flag). -/
theorem nodePre_mark_get (g : Nat → Bool) (j : Nat) :
    ∀ (n : TNode) (k : Nat),
      ((nodePre (markNode g j n))[k]?).map (fun m => (m.item, m.active, m.isOpen))
      = ((nodePre n)[k]?).map
          (fun m => (m.item, m.active, if g (j + k) then true else m.isOpen))
  | .mk it cs a o, k => by
    cases k with
    | zero =>
      simp only [markNode, nodePre, List.getElem?_cons_zero]
      simp [TNode.item, TNode.active, TNode.isOpen]
    | succ k =>
      simp only [markNode, nodePre, List.getElem?_cons_succ]
      have harith : j + 1 + k = j + (k + 1) := by omega
      rw [forestPre_mark_get g (j + 1) cs k, harith]

/-- Positional effect of the marking pass on a forest. -/
theorem forestPre_mark_get (g : Nat → Bool) (j : Nat) :
    ∀ (ts : List TNode) (k : Nat),
      ((forestPre (markForest g j ts))[k]?).map (fun m => (m.item, m.active, m.isOpen))
      = ((forestPre ts)[k]?).map
          (fun m => (m.item, m.active, if g (j + k) then true else m.isOpen))
  | [], k => by simp [markForest, forestPre]
  | n :: ns, k => by
    rw [markForest, forestPre, forestPre]
    have hlen : (nodePre (markNode g j n)).length = (nodePre n).length := by
      calc (nodePre (markNode g j n)).length
          = ((nodePre (markNode g j n)).map TNode.item).length :=
            (List.length_map _ _).symm
        _ = ((nodePre n).map TNode.item).length := by rw [nodePre_mark_items g j n]
        _ = (nodePre n).length := List.length_map _ _
    rcases Nat.lt_or_ge k (nodePre n).length with hk | hk
    · rw [List.getElem?_append, List.getElem?_append, hlen, if_pos hk, if_pos hk]
      exact nodePre_mark_get g j n k
    · rw [List.getElem?_append_right (by omega), List.getElem?_append_right hk, hlen]
      have harith : j + (nodePre n).length + (k - (nodePre n).length) = j + k := by
        omega
      rw [forestPre_mark_get g (j + (nodePre n).length) ns (k - (nodePre n).length),
        harith]

end

/-- Effect of the open-marking phase, read back through `node_map`: in
the marked forest a node's `open` flag is true exactly when its record's
id belongs to the marked id set — because each marked id opens the
pre-order position its `node_map` entry aliases, and with distinct ids
that position is the node's own. -/
theorem marked_isOpen_iff {rev : String → Option String} {items : List MenuItem}
    {cur : String} {ts : List TNode}
    (hb : build_forest rev items cur (items.length + 1) (build_tree items none) = some ts)
    (hpreNodup : ((forestItems ts).map MenuItem.id).Nodup) (ids : List Nat) :
    ∀ n' ∈ forestPre (markForest
        (fun j => decide (j ∈ ids.filterMap (lastIdxOf (forestItems ts)))) 0 ts),
      (n'.isOpen = true ↔ n'.item.id ∈ ids) := by
  intro n' hn'
  obtain ⟨k, hk⟩ := List.mem_iff_getElem?.1 hn'
  have hproj := forestPre_mark_get
    (fun j => decide (j ∈ ids.filterMap (lastIdxOf (forestItems ts)))) 0 ts k
  rw [hk] at hproj
  cases hts : (forestPre ts)[k]? with
  | none => rw [hts] at hproj; exact absurd hproj (by simp)
  | some m =>
    rw [hts, Option.map_some', Option.map_some'] at hproj
    injection hproj with hproj
    rw [Prod.mk.injEq, Prod.mk.injEq] at hproj
    obtain ⟨hitem, -, hopen⟩ := hproj
    have hmem_m : m ∈ forestPre ts := List.mem_iff_getElem?.2 ⟨k, hts⟩
    obtain ⟨-, -, hsh⟩ := build_forest_nodes rev items cur _ _ _ hb m hmem_m
    have hmopen : m.isOpen = false := by
      simpa [TNode.isOpen] using congrArg TNode.isOpen hsh
    rw [hmopen, Nat.zero_add] at hopen
    have hpk : (forestItems ts)[k]? = some m.item := by
      unfold forestItems
      rw [List.getElem?_map, hts]
      rfl
    constructor
    · intro ho
      rw [ho] at hopen
      have hkpos : k ∈ ids.filterMap (lastIdxOf (forestItems ts)) := by
        by_contra hcon
        rw [if_neg (by simpa using hcon)] at hopen
        exact absurd hopen (by simp)
      obtain ⟨i, hi, hlast⟩ := List.mem_filterMap.1 hkpos
      obtain ⟨m', hm', hid'⟩ := lastIdxOf_some hlast
      rw [hpk] at hm'
      have hmm' : m.item = m' := by simpa using hm'
      rw [hitem, hmm', hid']
      exact hi
    · intro hin
      have hlast : lastIdxOf (forestItems ts) n'.item.id = some k := by
        rw [hitem]
        exact lastIdxOf_of_getElem hpreNodup hpk
      have hkpos : k ∈ ids.filterMap (lastIdxOf (forestItems ts)) :=
        List.mem_filterMap.2 ⟨n'.item.id, hin, hlast⟩
      rw [hopen, if_pos (by simpa using hkpos)]

/-- C2 amended: `open = true` holds exactly for the *recorded* active
node — the last pre-order match, not the first — and its strict
ancestors: for every successful call with unique ids, when the recorded
active item is `act` with foreign-key ancestor chain `ancs`, a node of
the output is open exactly when its record's id is an ancestor id or
`act`'s own id; and when no node's resolved location matches, every
`open` and `active` flag is false and no error is raised. -/
theorem C2_theorem (rev : String → Option String) (items : List MenuItem) (cur : String)
    (out : List TNode) (hnd : (items.map MenuItem.id).Nodup)
    (hok : draw_menu rev (some cur) (some items) = .ok out) :
    (activeItem rev cur out = none →
      ∀ n ∈ forestPre out, n.isOpen = false ∧ n.active = false)
    ∧ ∀ act, activeItem rev cur out = some act →
      ∀ ancs, ancestors items (items.length + 1) act.parent_id = some ancs →
      ∀ n ∈ forestPre out,
        (n.isOpen = true ↔ n.item.id ∈ ancs.map MenuItem.id ++ [act.id]) := by
  obtain ⟨ts, hb, hcase⟩ := draw_menu_core_cases (draw_menu_ok hok)
  rcases hcase with ⟨hanone, rfl⟩ | ⟨act₀, ancs₀, haAct, hAnc, rfl⟩
  · constructor
    · intro _ n hn
      obtain ⟨-, -, hsh⟩ := build_forest_nodes rev items cur _ _ _ hb n hn
      constructor
      · simpa [TNode.isOpen] using congrArg TNode.isOpen hsh
      · have hact : n.active = decide (get_absolute_url rev n.item = cur) := by
          simpa [TNode.active] using congrArg TNode.active hsh
        unfold activeItem forestItems at hanone
        rw [List.getLast?_eq_none_iff] at hanone
        have hmem : n.item ∈ (forestPre out).map TNode.item :=
          List.mem_map_of_mem TNode.item hn
        have hfalse := List.filter_eq_nil_iff.1 hanone n.item hmem
        rw [hact]
        cases hdec : decide (get_absolute_url rev n.item = cur)
        · rfl
        · exact absurd hdec hfalse
    · intro act hact
      rw [hanone] at hact
      exact absurd hact (by simp)
  · have hpreNodup : ((forestItems ts).map MenuItem.id).Nodup := by
      apply build_forest_items_nodup hnd _ _ _ hb
      · exact ((List.perm_insertionSort keyLE _).nodup_iff).mpr
          ((List.Nodup.of_map MenuItem.id hnd).filter _)
      · intro c hc
        exact build_tree_subset hc
      · exact roots_sep _
    constructor
    · intro h0
      rw [activeItem_mark, haAct] at h0
      exact absurd h0 (by simp)
    · intro act hact ancs hancs n' hn'
      rw [activeItem_mark, haAct] at hact
      have hacteq : act₀ = act := by simpa using hact
      subst hacteq
      rw [hAnc] at hancs
      have hancseq : ancs₀ = ancs := by simpa using hancs
      subst hancseq
      exact marked_isOpen_iff hb hpreNodup (ancs₀.map MenuItem.id ++ [act₀.id]) n' hn'

/-- C2 witness: on the worked scenario the recorded active item is the
`/about` record with ancestor chain `[specRoot]`, and the produced root
node is open exactly because its id (1) is an ancestor id. -/
theorem C2_witness :
    TNode.isOpen specNodeRoot = true
      ↔ (TNode.item specNodeRoot).id ∈ [specRoot].map MenuItem.id ++ [specAbout.id] :=
  (C2_theorem rev0 [specRoot, specAbout, specContact] "/about" [specNodeRoot]
    (by decide) (by rfl)).2 specAbout (by rfl) [specRoot] (by rfl) specNodeRoot
    (by simp [specNodeRoot, forestPre, nodePre])
